import Mathlib

/-!
Verification of the texteditor pipeline core against its specification.

The definitions below are a shallow embedding of the Python sources:
  - `src/pipeline_v1/run_pipeline_layered.py` (`clean_layers`): per-layer
    protection/removal scan, mask construction, dilation, alpha erasure,
    cleaning report;
  - `src/pipeline_v1/run_pipeline_text_rendering.py` (`composite_layers`,
    `render_text_layer`, `find_best_font_size`): layer compositing, line
    clustering, font-size binary search, width clamping;
  - `src/pipeline_v4/rendering/google_fonts_runtime_loader.py`
    (`get_font_path`): closest-weight variant selection.

Conventions: Python floats are modelled as rationals; rasters are total
functions from integer pixel coordinates to RGBA pixels; the external text
detector's per-layer output is data (`Option` models a failed detection
call); detection polygons are modelled as axis-aligned rectangles (the
CRAFT detector with `merge_lines=True` emits rectangular boxes), so
`cv2.fillPoly` coverage is boundary-inclusive box membership.
-/

namespace Pipeline

/-- An RGBA pixel, channels as rationals (OpenCV stores 0..255 per channel). -/
structure Pixel where
  r : ℚ
  g : ℚ
  b : ℚ
  a : ℚ
deriving DecidableEq

/-- An axis-aligned bounding box, as in the `bbox` dicts of the pipeline:
origin `(x, y)` plus width `w` and height `h`. -/
structure BBox where
  x : ℚ
  y : ℚ
  w : ℚ
  h : ℚ
deriving DecidableEq, Inhabited

/-- One Gemini analysis record for a global region: its semantic `role`
and its recognised `text` (`analysis.get("role", ...)`, `analysis.get("text", "")`). -/
structure Analysis where
  role : String
  text : String
deriving DecidableEq

/-- One global CRAFT text region: id plus bounding box, as in
`global_craft_result["text_regions"]`. -/
structure GRegion where
  id : Nat
  bbox : BBox
deriving DecidableEq, Inhabited

/-- One local (per-layer) CRAFT detection: its `bbox` and its `polygon`
(modelled as an axis-aligned rectangle, see the file header). -/
structure LocalDet where
  bbox : BBox
  poly : BBox
deriving DecidableEq

/-- The Gemini result map, keyed by region id (`gemini_map` in the code). -/
def GeminiMap : Type := List (Nat × Analysis)

/-- `gemini_map` lookup: the first entry for the given region id. -/
def lookupAnalysis (gmap : GeminiMap) (rid : Nat) : Option Analysis :=
  (List.find? (fun p => p.1 == rid) gmap).map (fun p => p.2)

/-- Role of a global region, from `clean_layers`:
`gemini_map[rid].get("role", "body").lower().strip()`, default `"body"`
when the region id is not in the map. -/
def roleOf (gmap : GeminiMap) (rid : Nat) : String :=
  match lookupAnalysis gmap rid with
  | some a => a.role.toLower.trim
  | none => "body"

/-- Stripped text of a global region, from `clean_layers`:
`gemini_map.get(g_rid, ...).get("text", "").strip()`. -/
def textOf (gmap : GeminiMap) (rid : Nat) : String :=
  match lookupAnalysis gmap rid with
  | some a => a.text.trim
  | none => ""

/-- The roles whose regions protect overlapping local detections
(`["product_text", "ui_element", "logo"]` in `clean_layers`). -/
def protectedRoles : List String := ["product_text", "ui_element", "logo"]

/-- Scale a global bbox into layer coordinates and inflate it by the
adaptive padding `pad = 15 + 10%` of the scaled dimension, per axis
(`gx_pad`, `gy_pad`, `gw_pad`, `gh_pad` in `clean_layers`). -/
def scalePad (g : BBox) (sx sy : ℚ) : BBox :=
  let gx := g.x * sx
  let gy := g.y * sy
  let gw := g.w * sx
  let gh := g.h * sy
  let padX := 15 + gw * (10 / 100)
  let padY := 15 + gh * (10 / 100)
  BBox.mk (gx - padX) (gy - padY) (gw + 2 * padX) (gh + 2 * padY)

/-- Horizontal center of a bbox (`cx = x + width / 2`). -/
def centerX (b : BBox) : ℚ := b.x + b.w / 2

/-- Vertical center of a bbox (`cy = y + height / 2`). -/
def centerY (b : BBox) : ℚ := b.y + b.h / 2

/-- Strict rectangle intersection test from `clean_layers`:
`x_right > x_left and y_bottom > y_top` on the clipped box. -/
def intersects (b p : BBox) : Prop :=
  max b.x p.x < min (b.x + b.w) (p.x + p.w) ∧
  max b.y p.y < min (b.y + b.h) (p.y + p.h)

instance (b p : BBox) : Decidable (intersects b p) := by
  unfold intersects
  exact inferInstance

/-- Boundary-inclusive center containment from `clean_layers`:
`gx_pad <= cx <= gx_pad + gw_pad and gy_pad <= cy <= gy_pad + gh_pad`. -/
def centerIn (d : LocalDet) (p : BBox) : Prop :=
  p.x ≤ centerX d.bbox ∧ centerX d.bbox ≤ p.x + p.w ∧
  p.y ≤ centerY d.bbox ∧ centerY d.bbox ≤ p.y + p.h

instance (d : LocalDet) (p : BBox) : Decidable (centerIn d p) := by
  unfold centerIn
  exact inferInstance

/-- Protection condition for one global region: the local detection's bbox
(strictly) intersects the padded, layer-scaled region and the region's
role is in the protected set. -/
def protCond (gmap : GeminiMap) (sx sy : ℚ) (d : LocalDet) (g : GRegion) : Prop :=
  intersects d.bbox (scalePad g.bbox sx sy) ∧ roleOf gmap g.id ∈ protectedRoles

instance (gmap : GeminiMap) (sx sy : ℚ) (d : LocalDet) (g : GRegion) :
    Decidable (protCond gmap sx sy d g) := by
  unfold protCond
  exact inferInstance

/-- Removal condition for one global region: the detection's center lies
(boundary-inclusively) inside the padded, layer-scaled region, the role is
not protected, and the stripped text is non-empty. -/
def remCond (gmap : GeminiMap) (sx sy : ℚ) (d : LocalDet) (g : GRegion) : Prop :=
  centerIn d (scalePad g.bbox sx sy) ∧ roleOf gmap g.id ∉ protectedRoles ∧
    textOf gmap g.id ≠ ""

instance (gmap : GeminiMap) (sx sy : ℚ) (d : LocalDet) (g : GRegion) :
    Decidable (remCond gmap sx sy d g) := by
  unfold remCond
  exact inferInstance

/-- The per-detection scan over the global regions in `clean_layers`:
walks the list carrying the accumulated `is_removable` flag; on the first
protecting region it stops (`break`) returning `is_protected = true`,
otherwise it updates `is_removable` with the removal condition. Returns
`(is_protected, is_removable)`. -/
def scanGlobals (gmap : GeminiMap) (sx sy : ℚ) (d : LocalDet) :
    List GRegion → Bool → Bool × Bool
  | [], rem => (false, rem)
  | g :: rest, rem =>
    if protCond gmap sx sy d g then (true, rem)
    else scanGlobals gmap sx sy d rest (rem || decide (remCond gmap sx sy d g))

/-- Decision whether a local detection's polygon is added to the erase
mask: not protected and removable (`if is_protected: continue
elif is_removable: fillPoly`). -/
def eraseDecision (gmap : GeminiMap) (gs : List GRegion) (sx sy : ℚ)
    (d : LocalDet) : Bool :=
  let s := scanGlobals gmap sx sy d gs false
  !s.1 && s.2

/-- A raster: a total function from integer pixel coordinates `(i, j)`
(column, row order is irrelevant to the claims) to RGBA pixels. -/
def Raster : Type := Int → Int → Pixel

/-- One decomposed layer as `clean_layers` sees it: its file stem, the
pixel dimensions reported by the detector (`image_dimensions`), its RGBA
raster, and the result of the per-layer local re-detection call — `none`
models the detector raising (the `except` branch of `clean_layers`). -/
structure Layer where
  name : String
  width : Nat
  height : Nat
  raster : Raster
  dets : Option (List LocalDet)

/-- The canonical reference dimensions (`orig_h, orig_w = orig_size[:2]`). -/
structure RunConfig where
  origW : ℚ
  origH : ℚ

/-- Per-layer x scale factor (`sx = w / orig_w`). -/
def layerScaleX (cfg : RunConfig) (ly : Layer) : ℚ := (ly.width : ℚ) / cfg.origW

/-- Per-layer y scale factor (`sy = h / orig_h`). -/
def layerScaleY (cfg : RunConfig) (ly : Layer) : ℚ := (ly.height : ℚ) / cfg.origH

/-- `cv2.fillPoly` coverage of one (rectangular) detection polygon:
boundary-inclusive box membership at integer pixel coordinates. -/
def inPoly (p : BBox) (i j : Int) : Prop :=
  p.x ≤ (i : ℚ) ∧ (i : ℚ) ≤ p.x + p.w ∧ p.y ≤ (j : ℚ) ∧ (j : ℚ) ≤ p.y + p.h

instance (p : BBox) (i j : Int) : Decidable (inPoly p i j) := by
  unfold inPoly
  exact inferInstance

/-- The raw per-layer erase mask: the union of the polygons of the
detections that were marked for erasure (`cv2.fillPoly(layer_mask, ...)`). -/
def rawMask (erased : List LocalDet) (i j : Int) : Bool :=
  erased.any (fun d => decide (inPoly d.poly i j))

/-- The 5×5 structuring-element offsets of
`cv2.dilate(layer_mask, np.ones((5, 5)), iterations=1)`. -/
def dilateOffsets : List (Int × Int) :=
  (List.range 5).flatMap (fun a => (List.range 5).map (fun b => ((a : Int) - 2, (b : Int) - 2)))

/-- Morphological dilation of a mask by the 5×5 kernel. -/
def dilated (m : Int → Int → Bool) (i j : Int) : Bool :=
  dilateOffsets.any (fun o => m (i + o.1) (j + o.2))

/-- Alpha erasure from `clean_layers`:
`img[:, :, 3] = np.where(layer_mask == 255, 0, img[:, :, 3])` — the alpha
channel is zeroed wherever the mask is set, all other channels untouched. -/
def eraseAlpha (r : Raster) (m : Int → Int → Bool) : Raster :=
  fun i j => if m i j then Pixel.mk (r i j).r (r i j).g (r i j).b 0 else r i j

/-- One entry of the cleaning report appended per successfully processed
layer in `clean_layers`. -/
structure ReportEntry where
  originalLayer : String
  cleanedLayer : String
  status : String
  action : String
  regionsRemoved : Nat
deriving DecidableEq

/-- Cleaning of one layer in `clean_layers`: on detection failure the
layer is skipped entirely (`continue`, hence `none`); otherwise the
detections whose erase decision holds are rasterized into the layer mask,
the mask is dilated, and alpha is zeroed under it (`should_clean` is
`removable_regions_count > 0`); an unmodified layer is reported
`"preserved"`, a modified one `"cleaned"`. -/
def cleanLayer (gmap : GeminiMap) (gs : List GRegion) (cfg : RunConfig)
    (ly : Layer) : Option (Raster × ReportEntry) :=
  match ly.dets with
  | none => none
  | some dets =>
    let sx := layerScaleX cfg ly
    let sy := layerScaleY cfg ly
    let erased := dets.filter (eraseDecision gmap gs sx sy)
    let cleanedName := ly.name ++ "_cleaned.png"
    if erased.length > 0 then
      some (eraseAlpha ly.raster (dilated (rawMask erased)),
        ReportEntry.mk ly.name cleanedName "cleaned" "erased_text" erased.length)
    else
      some (ly.raster, ReportEntry.mk ly.name cleanedName "preserved" "none" 0)

/-- The whole cleaning pass of `clean_layers`: per layer, a cleaned raster
and a report entry are appended only when local detection succeeded. -/
def cleanLayers (gmap : GeminiMap) (gs : List GRegion) (cfg : RunConfig)
    (lys : List Layer) : List Raster × List ReportEntry :=
  let outs := lys.filterMap (cleanLayer gmap gs cfg)
  (outs.map Prod.fst, outs.map Prod.snd)

/-- PIL `Image.alpha_composite` of one pixel: `top` over `bot`, channels
in 0..255, alpha normalized to 0..1 for the blend. -/
def alphaOver (bot top : Pixel) : Pixel :=
  let ta := top.a / 255
  let ba := bot.a / 255
  let oa := ta + ba * (1 - ta)
  if oa = 0 then Pixel.mk 0 0 0 0
  else
    Pixel.mk ((top.r * ta + bot.r * ba * (1 - ta)) / oa)
      ((top.g * ta + bot.g * ba * (1 - ta)) / oa)
      ((top.b * ta + bot.b * ba * (1 - ta)) / oa)
      (oa * 255)

/-- `composite_layers`: the first layer is the base, every further layer
is alpha-composited over the accumulated canvas; `none` when there is no
layer at all (`base_img is None`). -/
def compositeRasters : List Raster → Option Raster
  | [] => none
  | r :: rest =>
    some (rest.foldl (fun acc x => fun i j => alphaOver (acc i j) (x i j)) r)

/-- Vertical center of a region, as used by the line clustering in
`render_text_layer` (`r_center = r_y + r_h / 2`). -/
def vCenter (r : GRegion) : ℚ := r.bbox.y + r.bbox.h / 2

/-- The clustering join test of `render_text_layer`: the vertical centers
of the region and of the line's first member differ by strictly less than
`0.5 ×` the average of the two heights
(`abs(r_center - l_center) < (avg_h * 0.5)`). -/
def sameLine (r first : GRegion) : Prop :=
  |vCenter r - vCenter first| < ((r.bbox.h + first.bbox.h) / 2) * (1 / 2)

instance (r first : GRegion) : Decidable (sameLine r first) := by
  unfold sameLine
  exact inferInstance

/-- One step of the greedy clustering loop: try the existing lines in
order; join the first line whose FIRST member passes the `sameLine` test
(the region is appended at the line's end), otherwise start a new line. -/
def placeRegion (r : GRegion) : List (List GRegion) → List (List GRegion)
  | [] => [[r]]
  | line :: rest =>
    if sameLine r line.headI then (line ++ [r]) :: rest
    else line :: placeRegion r rest

/-- The line clustering of `render_text_layer` for one role group: sort by
top `y` ascending (`group_regions.sort(key=lambda r: r["bbox"]["y"])`,
Python's stable sort), then place each region greedily. -/
def clusterLines (rs : List GRegion) : List (List GRegion) :=
  (rs.mergeSort (fun a b => a.bbox.y ≤ b.bbox.y)).foldl
    (fun ls r => placeRegion r ls) []

/-- The target height handed to the font binary search in
`render_text_layer`: `target_height = h * 0.95`. -/
def glyphTargetHeight (boxH : ℚ) : ℚ := boxH * (95 / 100)

/-- The `while low <= high` loop of `find_best_font_size`, with the
measured glyph-run height abstracted as `measure` (the external
`font.getbbox` call; on failure the code substitutes `mid` itself, which
is just another measure). `fuel` bounds the number of iterations; it is
initialised to `2001 ≥ high + 1 - low`, which the loop strictly decreases,
so the fuel never runs out. -/
def fontSearch (measure : Nat → ℚ) (target : ℚ) :
    Nat → Nat → Nat → Nat → Nat
  | 0, _, _, best => best
  | fuel + 1, low, high, best =>
    if low ≤ high then
      if measure ((low + high) / 2) ≤ target then
        fontSearch measure target fuel ((low + high) / 2 + 1) high ((low + high) / 2)
      else fontSearch measure target fuel low ((low + high) / 2 - 1) best
    else best

/-- `find_best_font_size`: binary search over `[1, 2000]` (the code sets
`low, high = 1, 500` and immediately bumps `high = 2000`), `best`
initialised to `low = 1`. -/
def findBestFontSize (measure : Nat → ℚ) (target : ℚ) : Nat :=
  fontSearch measure target 2001 1 2000 1

/-- Heading test of the width-overflow adjustment in `render_text_layer`:
`is_heading = role in ["heading", "hero_text"]`. -/
def isHeadingRole (role : String) : Bool :=
  decide (role ∈ ["heading", "hero_text"])

/-- The width limit of the overflow adjustment:
`width_limit = w * 1.1 if is_heading else w`. -/
def widthLimit (heading : Bool) (w : ℚ) : ℚ :=
  if heading then w * (11 / 10) else w

/-- The width-overflow adjustment of `render_text_layer`: measure the text
width at the chosen size; if it exceeds the limit, multiply the font size
by `limit / width` and truncate (`int(font_size * scale_factor)`). -/
def adjustForWidth (widthOf : Nat → ℚ) (role : String) (w : ℚ)
    (fontSize : Nat) : Nat :=
  let textW := widthOf fontSize
  let limit := widthLimit (isHeadingRole role) w
  if textW > limit then (⌊(fontSize : ℚ) * (limit / textW)⌋).toNat else fontSize

/-- Absolute distance between two numeric font weights
(`abs(w - font_weight)`). -/
def weightDist (a b : Nat) : Nat := ((a : Int) - (b : Int)).natAbs

/-- The closest-weight loop of `get_font_path`: walk the available
weights carrying `(best_weight, best_diff)`; update only on a strictly
smaller difference, so the earliest of equally-close weights wins. -/
def closestWeight (req : Nat) : List Nat → Option (Nat × Nat) → Option (Nat × Nat)
  | [], acc => acc
  | w :: rest, acc =>
    match acc with
    | none => closestWeight req rest (some (w, weightDist w req))
    | some (bw, bd) =>
      if weightDist w req < bd then closestWeight req rest (some (w, weightDist w req))
      else closestWeight req rest (some (bw, bd))

/-- `MAX_WEIGHT_DIFF = 200` of `get_font_path`. -/
def maxWeightDiff : Nat := 200

/-- The variant selection of `get_font_path` for one font family, with the
`"regular"` key normalised to the numeric weight `400`: exact requested
weight if present in the family's files; otherwise the closest available
weight, accepted only when its distance is at most `MAX_WEIGHT_DIFF`;
`none` models falling through to the bundled-Roboto fallback branch. -/
def resolveWeight (avail : List Nat) (requested : Nat) : Option Nat :=
  if requested ∈ avail then some requested
  else
    match closestWeight requested avail none with
    | some (bw, bd) => if bd ≤ maxWeightDiff then some bw else none
    | none => none

/-- The scan reports protection exactly when some global region in the
list protects the detection (the `break` only ends the loop early, it
cannot miss a protecting region). -/
theorem scanGlobals_fst_iff (gmap : GeminiMap) (sx sy : ℚ) (d : LocalDet) :
    ∀ (gs : List GRegion) (rem : Bool),
      (scanGlobals gmap sx sy d gs rem).1 = true ↔
        ∃ g ∈ gs, protCond gmap sx sy d g := by
  intro gs
  induction gs with
  | nil => intro rem; simp [scanGlobals]
  | cons g rest ih =>
    intro rem
    by_cases h : protCond gmap sx sy d g
    · simp [scanGlobals, h]
    · simp [scanGlobals, h, ih]

/-- When no global region protects the detection, the scan's removable
flag is exactly: it was already set, or some region meets the removal
condition. -/
theorem scanGlobals_snd_iff (gmap : GeminiMap) (sx sy : ℚ) (d : LocalDet) :
    ∀ (gs : List GRegion) (rem : Bool),
      (∀ g ∈ gs, ¬ protCond gmap sx sy d g) →
      ((scanGlobals gmap sx sy d gs rem).2 = true ↔
        rem = true ∨ ∃ g ∈ gs, remCond gmap sx sy d g) := by
  intro gs
  induction gs with
  | nil => intro rem _; simp [scanGlobals]
  | cons g rest ih =>
    intro rem hnp
    have hg : ¬ protCond gmap sx sy d g := hnp g (by simp)
    have hrest : ∀ x ∈ rest, ¬ protCond gmap sx sy d x :=
      fun x hx => hnp x (List.mem_cons_of_mem g hx)
    rw [scanGlobals, if_neg hg, ih _ hrest]
    simp only [Bool.or_eq_true, decide_eq_true_eq, List.mem_cons]
    constructor
    · rintro ((hr | hc) | ⟨g2, hg2, hc2⟩)
      · exact Or.inl hr
      · exact Or.inr ⟨g, Or.inl rfl, hc⟩
      · exact Or.inr ⟨g2, Or.inr hg2, hc2⟩
    · rintro (hr | ⟨g2, (rfl | hg2), hc2⟩)
      · exact Or.inl (Or.inl hr)
      · exact Or.inl (Or.inr hc2)
      · exact Or.inr ⟨g2, hg2, hc2⟩

/-- A set removable flag always traces back to an initial flag or to a
region meeting the removal condition, whether or not the scan broke early
on a protecting region. -/
theorem scanGlobals_snd_exists (gmap : GeminiMap) (sx sy : ℚ) (d : LocalDet) :
    ∀ (gs : List GRegion) (rem : Bool),
      (scanGlobals gmap sx sy d gs rem).2 = true →
      rem = true ∨ ∃ g ∈ gs, remCond gmap sx sy d g := by
  intro gs
  induction gs with
  | nil =>
    intro rem h
    simp [scanGlobals] at h
    exact Or.inl h
  | cons g rest ih =>
    intro rem h
    by_cases hg : protCond gmap sx sy d g
    · rw [scanGlobals, if_pos hg] at h
      exact Or.inl h
    · rw [scanGlobals, if_neg hg] at h
      rcases ih _ h with hr | ⟨g2, hg2, hc2⟩
      · have hr2 : rem = true ∨ decide (remCond gmap sx sy d g) = true := by
          simpa using hr
        rcases hr2 with hr3 | hc
        · exact Or.inl hr3
        · exact Or.inr ⟨g, List.mem_cons_self g rest, of_decide_eq_true hc⟩
      · exact Or.inr ⟨g2, List.mem_cons_of_mem g hg2, hc2⟩

/-- Claim C1: a local detection whose bbox intersects a padded,
layer-scaled global region with a protected role (product_text,
ui_element, logo) is never erased — its erase decision is `false` for the
given region list and for every permutation of it, and its polygon is
never in the filtered list that feeds the erase mask. -/
theorem c1_protected_never_erased (gmap : GeminiMap) (gs : List GRegion)
    (sx sy : ℚ) (d : LocalDet)
    (hprot : ∃ g ∈ gs, protCond gmap sx sy d g) :
    eraseDecision gmap gs sx sy d = false ∧
    (∀ gs2 : List GRegion, gs.Perm gs2 → eraseDecision gmap gs2 sx sy d = false) ∧
    (∀ dets : List LocalDet, d ∉ dets.filter (eraseDecision gmap gs sx sy)) := by
  have key : ∀ gs3 : List GRegion, (∃ g ∈ gs3, protCond gmap sx sy d g) →
      eraseDecision gmap gs3 sx sy d = false := by
    intro gs3 h3
    unfold eraseDecision
    have h1 := (scanGlobals_fst_iff gmap sx sy d gs3 false).mpr h3
    simp [h1]
  refine ⟨key gs hprot, fun gs2 hperm => key gs2 ?_, fun dets hmem => ?_⟩
  · obtain ⟨g, hg, hc⟩ := hprot
    exact ⟨g, hperm.subset hg, hc⟩
  · have h2 := (List.mem_filter.mp hmem).2
    rw [key gs hprot] at h2
    exact Bool.false_ne_true h2

/-- Witness for C1: a concrete detection overlapping a padded logo region
is not erased. -/
theorem c1_witness :
    eraseDecision [(1, Analysis.mk "logo" "BRAND")]
      [GRegion.mk 1 (BBox.mk 0 0 100 40)] 1 1
      (LocalDet.mk (BBox.mk 10 10 30 20) (BBox.mk 10 10 30 20)) = false :=
  (c1_protected_never_erased [(1, Analysis.mk "logo" "BRAND")]
    [GRegion.mk 1 (BBox.mk 0 0 100 40)] 1 1
    (LocalDet.mk (BBox.mk 10 10 30 20) (BBox.mk 10 10 30 20))
    ⟨GRegion.mk 1 (BBox.mk 0 0 100 40), by decide, by with_unfolding_all decide⟩).1

/-- Claim C4: an unprotected local detection is marked removable exactly
when its center lies boundary-inclusively inside some padded, layer-scaled
global region whose role is outside the protected set and whose stripped
text is non-empty. -/
theorem c4_removable_iff (gmap : GeminiMap) (gs : List GRegion) (sx sy : ℚ)
    (d : LocalDet) (hnp : ∀ g ∈ gs, ¬ protCond gmap sx sy d g) :
    eraseDecision gmap gs sx sy d = true ↔
      ∃ g ∈ gs, centerIn d (scalePad g.bbox sx sy) ∧
        roleOf gmap g.id ∉ protectedRoles ∧ textOf gmap g.id ≠ "" := by
  unfold eraseDecision
  have h1 : (scanGlobals gmap sx sy d gs false).1 = false := by
    rw [← Bool.not_eq_true, scanGlobals_fst_iff]
    rintro ⟨g, hg, hc⟩
    exact hnp g hg hc
  have h2 := scanGlobals_snd_iff gmap sx sy d gs false hnp
  simp only [h1, Bool.not_false, Bool.true_and]
  rw [h2]
  simp [remCond]

/-- Witness for C4: a detection whose center x equals the padded boundary
`gx_pad` exactly is contained (boundary inclusive) and marked removable by
a non-protected region with non-empty text. -/
theorem c4_witness :
    centerX (BBox.mk 70 100 20 20) = (scalePad (BBox.mk 100 100 50 50) 1 1).x ∧
    eraseDecision [(2, Analysis.mk "body" "SALE")]
      [GRegion.mk 2 (BBox.mk 100 100 50 50)] 1 1
      (LocalDet.mk (BBox.mk 70 100 20 20) (BBox.mk 70 100 20 20)) = true :=
  ⟨by with_unfolding_all decide,
    (c4_removable_iff [(2, Analysis.mk "body" "SALE")]
      [GRegion.mk 2 (BBox.mk 100 100 50 50)] 1 1
      (LocalDet.mk (BBox.mk 70 100 20 20) (BBox.mk 70 100 20 20))
      (by with_unfolding_all decide)).mpr
      ⟨GRegion.mk 2 (BBox.mk 100 100 50 50), by decide, by with_unfolding_all decide,
        by with_unfolding_all decide, by with_unfolding_all decide⟩⟩

/-- Claim C10: a detection is erased only on account of a global region
whose stripped text is non-empty (the text is stripped before the
non-emptiness test), so a global region whose text is empty or whitespace
only never causes a removable marking. -/
theorem c10_whitespace_text_never_removes (gmap : GeminiMap) (gs : List GRegion)
    (sx sy : ℚ) (d : LocalDet)
    (h : eraseDecision gmap gs sx sy d = true) :
    ∃ g ∈ gs, textOf gmap g.id ≠ "" ∧ centerIn d (scalePad g.bbox sx sy) ∧
      roleOf gmap g.id ∉ protectedRoles := by
  unfold eraseDecision at h
  rw [Bool.and_eq_true] at h
  rcases scanGlobals_snd_exists gmap sx sy d gs false h.2 with hfalse | ⟨g, hg, hc⟩
  · exact absurd hfalse (by simp)
  · exact ⟨g, hg, hc.2.2, hc.1, hc.2.1⟩

/-- Witness for C10: a concrete erased detection, caused by a region whose
text strips to the non-empty "GO". -/
theorem c10_witness :
    ∃ g ∈ [GRegion.mk 3 (BBox.mk 100 100 50 50)],
      textOf [(3, Analysis.mk "cta" "  GO  ")] g.id ≠ "" ∧
      centerIn (LocalDet.mk (BBox.mk 110 110 20 20) (BBox.mk 110 110 20 20))
        (scalePad g.bbox 1 1) ∧
      roleOf [(3, Analysis.mk "cta" "  GO  ")] g.id ∉ protectedRoles :=
  c10_whitespace_text_never_removes [(3, Analysis.mk "cta" "  GO  ")]
    [GRegion.mk 3 (BBox.mk 100 100 50 50)] 1 1
    (LocalDet.mk (BBox.mk 110 110 20 20) (BBox.mk 110 110 20 20))
    (by with_unfolding_all decide)

/-- Claim C2 counterexample: a single layer whose local re-detection
fails (`dets = none`) yields an empty cleaning report — no entry marks
the layer preserved, contradicting the claim that the failed layer is
marked preserved in the report. -/
theorem c2_counterexample :
    cleanLayers [] [] (RunConfig.mk 100 100)
      [Layer.mk "layer_2" 100 100 (fun _ _ => Pixel.mk 0 0 0 255) none] =
      ([], []) := rfl

/-- Claim C2 (amended): when per-layer local re-detection fails, the layer
is skipped — it contributes neither a cleaned raster nor any report
entry — and the remaining layers are processed exactly as if the failed
layer were absent (the run continues). -/
theorem c2_detection_failure_skips_layer (gmap : GeminiMap) (gs : List GRegion)
    (cfg : RunConfig) (ly : Layer) (lys : List Layer) (h : ly.dets = none) :
    cleanLayers gmap gs cfg (ly :: lys) = cleanLayers gmap gs cfg lys := by
  unfold cleanLayers
  rw [List.filterMap_cons]
  have hnone : cleanLayer gmap gs cfg ly = none := by
    unfold cleanLayer
    rw [h]
  rw [hnone]

/-- Witness for C2 (amended): a concrete failing layer followed by a
healthy one produces the same output as the healthy layer alone. -/
theorem c2_witness :
    cleanLayers [] [] (RunConfig.mk 100 100)
      [Layer.mk "a" 100 100 (fun _ _ => Pixel.mk 0 0 0 255) none,
        Layer.mk "b" 100 100 (fun _ _ => Pixel.mk 1 1 1 255) (some [])] =
    cleanLayers [] [] (RunConfig.mk 100 100)
      [Layer.mk "b" 100 100 (fun _ _ => Pixel.mk 1 1 1 255) (some [])] :=
  c2_detection_failure_skips_layer [] [] (RunConfig.mk 100 100)
    (Layer.mk "a" 100 100 (fun _ _ => Pixel.mk 0 0 0 255) none)
    [Layer.mk "b" 100 100 (fun _ _ => Pixel.mk 1 1 1 255) (some [])] rfl

/-- Claim C3 counterexample: a base layer (z-index 0, first and only
layer, named `layer_0`) containing a local detection whose center falls in
a padded removable global region is modified by the cleaning pass — the
pixel at (25, 25) has its alpha erased from 255 to 0. -/
theorem c3_counterexample :
    ((cleanLayers [(1, Analysis.mk "body" "SUMMER")]
        [GRegion.mk 1 (BBox.mk 10 10 40 20)] (RunConfig.mk 100 100)
        [Layer.mk "layer_0" 100 100 (fun _ _ => Pixel.mk 10 20 30 255)
          (some [LocalDet.mk (BBox.mk 20 20 10 10) (BBox.mk 20 20 10 10)])]).1.headD
      (fun _ _ => Pixel.mk 0 0 0 0)) 25 25 = Pixel.mk 10 20 30 0 ∧
    (Pixel.mk 10 20 30 0) ≠ (Pixel.mk 10 20 30 (255 : ℚ)) := by
  constructor
  · with_unfolding_all decide
  · with_unfolding_all decide

/-- Claim C3 (amended): `clean_layers` gives the base layer no special
treatment — the cleaned raster of a layer depends only on its dimensions,
raster and detections, never on its name (z-index), so layer 0 is modified
exactly like any other layer whenever it contains removable detections. -/
theorem c3_cleaning_ignores_layer_identity (gmap : GeminiMap) (gs : List GRegion)
    (cfg : RunConfig) (n1 n2 : String) (w h : Nat) (raster : Raster)
    (dets : Option (List LocalDet)) :
    (cleanLayer gmap gs cfg (Layer.mk n1 w h raster dets)).map Prod.fst =
    (cleanLayer gmap gs cfg (Layer.mk n2 w h raster dets)).map Prod.fst := by
  cases dets with
  | none => rfl
  | some ds =>
    simp only [cleanLayer, layerScaleX, layerScaleY]
    split <;> rfl

/-- No detection is ever marked for erasure when every global region's
role is in the protected KEEP set. -/
theorem eraseDecision_false_of_keep (gmap : GeminiMap) (gs : List GRegion)
    (sx sy : ℚ) (d : LocalDet)
    (hroles : ∀ g ∈ gs, roleOf gmap g.id ∈ protectedRoles) :
    eraseDecision gmap gs sx sy d = false := by
  unfold eraseDecision
  have hsnd : (scanGlobals gmap sx sy d gs false).2 = false := by
    cases hval : (scanGlobals gmap sx sy d gs false).2
    · rfl
    · rcases scanGlobals_snd_exists gmap sx sy d gs false hval with hf | ⟨g, hg, hc⟩
      · exact absurd hf (by simp)
      · exact absurd (hroles g hg) hc.2.1
  simp [hsnd]

/-- Claim C9: when every global region's role is in the KEEP
(protected) set, no detection on any layer is marked removable, every
layer's raster passes through cleaning unchanged, and the composited
output equals the plain alpha-composite of the unmodified original layers
(detection assumed to succeed on each layer). -/
theorem c9_keep_all_roundtrip (gmap : GeminiMap) (gs : List GRegion)
    (cfg : RunConfig) (lys : List Layer)
    (hroles : ∀ g ∈ gs, roleOf gmap g.id ∈ protectedRoles)
    (hdet : ∀ ly ∈ lys, ly.dets.isSome) :
    compositeRasters (cleanLayers gmap gs cfg lys).1 =
    compositeRasters (lys.map Layer.raster) := by
  have hclean : (cleanLayers gmap gs cfg lys).1 = lys.map Layer.raster := by
    induction lys with
    | nil => rfl
    | cons ly rest ih =>
      have hsome : ly.dets.isSome := hdet ly (List.mem_cons_self ly rest)
      obtain ⟨ds, hds⟩ := Option.isSome_iff_exists.mp hsome
      have hfilter : ds.filter
          (eraseDecision gmap gs (layerScaleX cfg ly) (layerScaleY cfg ly)) = [] := by
        apply List.filter_eq_nil_iff.mpr
        intro a _
        rw [eraseDecision_false_of_keep gmap gs _ _ a hroles]
        exact Bool.false_ne_true
      have hlayer : cleanLayer gmap gs cfg ly =
          some (ly.raster, ReportEntry.mk ly.name (ly.name ++ "_cleaned.png")
            "preserved" "none" 0) := by
        unfold cleanLayer
        rw [hds]
        simp only [hfilter, List.length_nil, gt_iff_lt, lt_self_iff_false, if_false]
      have hrest : ∀ l2 ∈ rest, l2.dets.isSome :=
        fun l2 h2 => hdet l2 (List.mem_cons_of_mem ly h2)
      unfold cleanLayers at ih ⊢
      rw [List.filterMap_cons, hlayer]
      simp only [List.map_cons]
      exact congrArg (fun z => ly.raster :: z) (ih hrest)
  rw [hclean]

/-- Witness for C9: one concrete layer and a single logo-role region —
cleaning then compositing equals compositing the original layer. -/
theorem c9_witness :
    compositeRasters (cleanLayers [(7, Analysis.mk "logo" "BRAND")]
      [GRegion.mk 7 (BBox.mk 0 0 10 10)] (RunConfig.mk 100 100)
      [Layer.mk "layer_0" 100 100 (fun _ _ => Pixel.mk 3 4 5 255)
        (some [LocalDet.mk (BBox.mk 2 2 4 4) (BBox.mk 2 2 4 4)])]).1 =
    compositeRasters ([Layer.mk "layer_0" 100 100 (fun _ _ => Pixel.mk 3 4 5 255)
      (some [LocalDet.mk (BBox.mk 2 2 4 4) (BBox.mk 2 2 4 4)])].map Layer.raster) :=
  c9_keep_all_roundtrip [(7, Analysis.mk "logo" "BRAND")]
    [GRegion.mk 7 (BBox.mk 0 0 10 10)] (RunConfig.mk 100 100)
    [Layer.mk "layer_0" 100 100 (fun _ _ => Pixel.mk 3 4 5 255)
      (some [LocalDet.mk (BBox.mk 2 2 4 4) (BBox.mk 2 2 4 4)])]
    (by with_unfolding_all decide)
    (by
      intro ly hly
      rw [List.mem_singleton] at hly
      subst hly
      rfl)

/-- Placing one region preserves the clustering invariant: every line is
nonempty and every non-first member passed the strict first-member
closeness test at insertion. -/
theorem placeRegion_preserves (r : GRegion) :
    ∀ lines : List (List GRegion),
      (∀ L ∈ lines, L ≠ [] ∧ ∀ m ∈ L.tail, sameLine m L.headI) →
      ∀ L ∈ placeRegion r lines, L ≠ [] ∧ ∀ m ∈ L.tail, sameLine m L.headI := by
  intro lines
  induction lines with
  | nil =>
    intro _ L hL
    simp only [placeRegion, List.mem_singleton] at hL
    subst hL
    exact ⟨by simp, by simp⟩
  | cons line rest ih =>
    intro hinv L hL
    rw [placeRegion] at hL
    by_cases hs : sameLine r line.headI
    · rw [if_pos hs] at hL
      rcases List.mem_cons.mp hL with rfl | hmem
      · have hline := hinv line (List.mem_cons_self _ _)
        obtain ⟨a, as, rfl⟩ := List.exists_cons_of_ne_nil hline.1
        refine ⟨by simp, ?_⟩
        intro m hm
        simp only [List.cons_append, List.tail_cons, List.headI_cons] at hm ⊢
        rcases List.mem_append.mp hm with hm2 | hm2
        · have := hline.2 m (by simpa using hm2)
          simpa using this
        · rw [List.mem_singleton.mp hm2]
          simpa using hs
      · exact hinv L (List.mem_cons_of_mem _ hmem)
    · rw [if_neg hs] at hL
      rcases List.mem_cons.mp hL with rfl | hmem
      · exact hinv L (List.mem_cons_self _ _)
      · exact ih (fun L2 h2 => hinv L2 (List.mem_cons_of_mem _ h2)) L hmem

/-- The greedy clustering fold preserves the invariant from any starting
state. -/
theorem foldl_place_invariant :
    ∀ (l : List GRegion) (lines : List (List GRegion)),
      (∀ L ∈ lines, L ≠ [] ∧ ∀ m ∈ L.tail, sameLine m L.headI) →
      ∀ L ∈ l.foldl (fun ls r => placeRegion r ls) lines,
        L ≠ [] ∧ ∀ m ∈ L.tail, sameLine m L.headI := by
  intro l
  induction l with
  | nil =>
    intro lines hinv
    simpa using hinv
  | cons r rest ih =>
    intro lines hinv
    simp only [List.foldl_cons]
    exact ih _ (placeRegion_preserves r lines hinv)

/-- Claim C7: the clusterer compares only against each line's FIRST
member: every clustered line is nonempty and each of its non-first
members is within strictly `0.5 ×` the average height of itself and the
line's first member; a region joins the first line passing that test
(appended at the end), skips a line failing it, and starts a fresh line at
the end when every line fails it. -/
theorem c7_first_member_rule (rs : List GRegion) :
    (∀ L ∈ clusterLines rs, L ≠ [] ∧ ∀ m ∈ L.tail, sameLine m L.headI) ∧
    (∀ (r : GRegion) (line : List GRegion) (lines : List (List GRegion)),
      sameLine r line.headI →
      placeRegion r (line :: lines) = (line ++ [r]) :: lines) ∧
    (∀ (r : GRegion) (line : List GRegion) (lines : List (List GRegion)),
      ¬ sameLine r line.headI →
      placeRegion r (line :: lines) = line :: placeRegion r lines) ∧
    (∀ (r : GRegion) (lines : List (List GRegion)),
      (∀ L ∈ lines, ¬ sameLine r L.headI) →
      placeRegion r lines = lines ++ [[r]]) := by
  refine ⟨?_, ?_, ?_, ?_⟩
  · intro L hL
    exact foldl_place_invariant _ [] (by simp) L (by simpa [clusterLines] using hL)
  · intro r line lines hs
    rw [placeRegion, if_pos hs]
  · intro r line lines hs
    rw [placeRegion, if_neg hs]
  · intro r lines
    induction lines with
    | nil => intro _; rfl
    | cons line rest ih =>
      intro hnone
      rw [placeRegion, if_neg (hnone line (List.mem_cons_self _ _)),
        ih (fun L hL => hnone L (List.mem_cons_of_mem _ hL))]
      rfl

/-- Witness for C7: a region 300px below an existing line's first member
(heights 10) fails the test and starts a new line at the end. -/
theorem c7_witness :
    placeRegion (GRegion.mk 2 (BBox.mk 50 300 10 10))
      [[GRegion.mk 1 (BBox.mk 0 0 10 10)]] =
    [[GRegion.mk 1 (BBox.mk 0 0 10 10)], [GRegion.mk 2 (BBox.mk 50 300 10 10)]] :=
  (c7_first_member_rule []).2.2.2 (GRegion.mk 2 (BBox.mk 50 300 10 10))
    [[GRegion.mk 1 (BBox.mk 0 0 10 10)]] (by with_unfolding_all decide)

/-- Loop invariant of the font-size binary search: with a monotone
measure, sufficient fuel, and a recorded best that fits and dominates all
fitting sizes below `low`, the loop returns the greatest fitting size in
`[1, 2000]`. -/
theorem fontSearch_invariant (measure : Nat → ℚ) (target : ℚ)
    (hmono : ∀ a b : Nat, a ≤ b → measure a ≤ measure b) :
    ∀ fuel low high best : Nat,
      high + 1 - low ≤ fuel → high ≤ 2000 → best ≤ low → 1 ≤ best → best ≤ 2000 →
      measure best ≤ target →
      (∀ t, t < low → measure t ≤ target → t ≤ best) →
      (∀ t, t ≤ 2000 → measure t ≤ target → t ≤ high ∨ t ≤ best) →
      1 ≤ fontSearch measure target fuel low high best ∧
      fontSearch measure target fuel low high best ≤ 2000 ∧
      measure (fontSearch measure target fuel low high best) ≤ target ∧
      ∀ t, t ≤ 2000 → measure t ≤ target →
        t ≤ fontSearch measure target fuel low high best := by
  intro fuel
  induction fuel with
  | zero =>
    intro low high best _ _ _ hb1 hb2 hbt hbelow hglobal
    refine ⟨hb1, hb2, hbt, fun t ht hft => ?_⟩
    rcases hglobal t ht hft with h1 | h2
    · exact hbelow t (by omega) hft
    · exact h2
  | succ fuel ih =>
    intro low high best hfuel hh hbl hb1 hb2 hbt hbelow hglobal
    rw [fontSearch]
    by_cases hlh : low ≤ high
    · rw [if_pos hlh]
      have hml : low ≤ (low + high) / 2 := by omega
      have hmh : (low + high) / 2 ≤ high := by omega
      by_cases hfit : measure ((low + high) / 2) ≤ target
      · rw [if_pos hfit]
        refine ih ((low + high) / 2 + 1) high ((low + high) / 2) (by omega) hh
          (by omega) (by omega) (by omega) hfit (fun t ht _ => by omega)
          (fun t ht hft => ?_)
        rcases hglobal t ht hft with h1 | h2
        · exact Or.inl h1
        · exact Or.inr (by omega)
      · rw [if_neg hfit]
        refine ih low ((low + high) / 2 - 1) best (by omega) (by omega) hbl hb1 hb2
          hbt hbelow (fun t ht hft => ?_)
        rcases hglobal t ht hft with h1 | h2
        · left
          have hlt : t < (low + high) / 2 := by
            by_contra hge
            exact hfit (le_trans (hmono _ t (by omega)) hft)
          omega
        · exact Or.inr h2
    · rw [if_neg hlh]
      refine ⟨hb1, hb2, hbt, fun t ht hft => ?_⟩
      rcases hglobal t ht hft with h1 | h2
      · exact hbelow t (by omega) hft
      · exact h2

/-- Claim C5 (amended): for a measured glyph-run height monotone in the
font size and fitting at size 1, `find_best_font_size` returns the
greatest integer size in `[1, 2000]` whose measured height is at most
`0.95 ×` the target box height; in particular the chosen size meets that
height bound. -/
theorem c5_font_size_maximal (measure : Nat → ℚ) (boxH : ℚ)
    (hmono : ∀ a b : Nat, a ≤ b → measure a ≤ measure b)
    (hfit : measure 1 ≤ glyphTargetHeight boxH) :
    1 ≤ findBestFontSize measure (glyphTargetHeight boxH) ∧
    findBestFontSize measure (glyphTargetHeight boxH) ≤ 2000 ∧
    measure (findBestFontSize measure (glyphTargetHeight boxH)) ≤
      glyphTargetHeight boxH ∧
    ∀ t, t ≤ 2000 → measure t ≤ glyphTargetHeight boxH →
      t ≤ findBestFontSize measure (glyphTargetHeight boxH) := by
  unfold findBestFontSize
  exact fontSearch_invariant measure _ hmono 2001 1 2000 1 (by omega) (by omega)
    (by omega) (by omega) (by omega) hfit (fun t ht _ => by omega)
    (fun t ht _ => Or.inl ht)

/-- Witness for C5 (amended): with the identity measure and box height
100 the search obeys all four bounds (the chosen size is the greatest one
measuring at most 95). -/
theorem c5_witness :
    1 ≤ findBestFontSize (fun s => (s : ℚ)) (glyphTargetHeight 100) ∧
    findBestFontSize (fun s => (s : ℚ)) (glyphTargetHeight 100) ≤ 2000 ∧
    ((findBestFontSize (fun s => (s : ℚ)) (glyphTargetHeight 100) : ℚ)) ≤
      glyphTargetHeight 100 ∧
    ∀ t : Nat, t ≤ 2000 → ((t : ℚ)) ≤ glyphTargetHeight 100 →
      t ≤ findBestFontSize (fun s => (s : ℚ)) (glyphTargetHeight 100) :=
  c5_font_size_maximal (fun s => (s : ℚ)) 100
    (fun a b h => Nat.cast_le.mpr h) (by with_unfolding_all decide)

/-- Claim C5 counterexample: a monotone measured height that already
exceeds the scaled target at size 1 (box height 6, measured height
`size + 10`): the search returns size 1 whose measured height 11 exceeds
the bound `6 × 0.95 = 5.7` by more than the 1px tolerance, refuting the
unconditional height guarantee. -/
theorem c5_counterexample :
    findBestFontSize (fun s => (s : ℚ) + 10) (glyphTargetHeight 6) = 1 ∧
    ¬ (((1 : ℚ) + 10) ≤ glyphTargetHeight 6 + 1) := by
  constructor
  · with_unfolding_all decide
  · with_unfolding_all decide

/-- Core bounds of the proportional downscale step: for a width linear in
the font size and a nonnegative limit, the truncated rescale never
increases the size, lands at most at the limit, and is the identity when
the measured width is already within the limit. -/
theorem scale_step_bounds (c limit : ℚ) (fontSize : Nat)
    (hc : 0 ≤ c) (hl : 0 ≤ limit) :
    (if c * fontSize > limit
      then (⌊(fontSize : ℚ) * (limit / (c * fontSize))⌋).toNat else fontSize) ≤
        fontSize ∧
    c * ((if c * fontSize > limit
      then (⌊(fontSize : ℚ) * (limit / (c * fontSize))⌋).toNat else fontSize : Nat) : ℚ) ≤
        limit ∧
    (c * fontSize ≤ limit →
      (if c * fontSize > limit
        then (⌊(fontSize : ℚ) * (limit / (c * fontSize))⌋).toNat else fontSize) =
          fontSize) := by
  split_ifs with hover
  · have hcfs : (0 : ℚ) < c * fontSize := lt_of_le_of_lt hl hover
    have hcpos : (0 : ℚ) < c := by
      rcases lt_or_eq_of_le hc with h | h
      · exact h
      · rw [← h, zero_mul] at hcfs
        exact absurd hcfs (lt_irrefl 0)
    have hfs : (0 : ℚ) < (fontSize : ℚ) := by
      by_contra hz
      push_neg at hz
      have : c * (fontSize : ℚ) ≤ 0 := mul_nonpos_of_nonneg_of_nonpos hc hz
      exact absurd (lt_of_lt_of_le hcfs this) (lt_irrefl 0)
    have hfs0 : (fontSize : ℚ) ≠ 0 := ne_of_gt hfs
    have hc0 : c ≠ 0 := ne_of_gt hcpos
    have hsimp : (fontSize : ℚ) * (limit / (c * fontSize)) = limit / c := by
      field_simp
      ring
    have hfloor_nonneg : 0 ≤ ⌊limit / c⌋ :=
      Int.floor_nonneg.mpr (div_nonneg hl (le_of_lt hcpos))
    have hcast : (((⌊limit / c⌋).toNat : ℚ)) = ((⌊limit / c⌋ : ℤ) : ℚ) := by
      exact_mod_cast congrArg (fun z : ℤ => (z : ℚ)) (Int.toNat_of_nonneg hfloor_nonneg)
    rw [hsimp]
    refine ⟨?_, ?_, fun hle => absurd hle (not_le.mpr hover)⟩
    · have hdiv : limit / c < fontSize := by
        rw [div_lt_iff₀ hcpos]
        calc limit < c * fontSize := hover
        _ = (fontSize : ℚ) * c := mul_comm _ _
      have hfl : ((⌊limit / c⌋ : ℤ) : ℚ) < (fontSize : ℚ) :=
        lt_of_le_of_lt (Int.floor_le _) hdiv
      have hint : ⌊limit / c⌋ < (fontSize : ℤ) := by exact_mod_cast hfl
      exact Int.toNat_le.mpr (le_of_lt hint)
    · rw [hcast]
      calc c * ((⌊limit / c⌋ : ℤ) : ℚ) ≤ c * (limit / c) :=
            mul_le_mul_of_nonneg_left (Int.floor_le _) (le_of_lt hcpos)
      _ = limit := mul_div_cancel₀ limit hc0
  · exact ⟨le_refl _, le_of_not_lt hover, fun _ => rfl⟩

/-- Claim C6: with glyph width proportional to the font size, the width
adjustment after height-based sizing never increases the size (downscale
only); a non-heading line ends within the target width, a heading line
within 110% of it; and no rescale happens while the measured width is
within the role's limit (headings may overflow up to 10% untouched). -/
theorem c6_width_clamp (c wBox : ℚ) (role : String) (fontSize : Nat)
    (hc : 0 ≤ c) (hw : 0 ≤ wBox) :
    adjustForWidth (fun s => c * s) role wBox fontSize ≤ fontSize ∧
    (isHeadingRole role = false →
      c * (adjustForWidth (fun s => c * s) role wBox fontSize : ℚ) ≤ wBox) ∧
    (isHeadingRole role = true →
      c * (adjustForWidth (fun s => c * s) role wBox fontSize : ℚ) ≤
        wBox * (11 / 10)) ∧
    (c * (fontSize : ℚ) ≤ widthLimit (isHeadingRole role) wBox →
      adjustForWidth (fun s => c * s) role wBox fontSize = fontSize) := by
  have hl : 0 ≤ widthLimit (isHeadingRole role) wBox := by
    unfold widthLimit
    cases isHeadingRole role
    · simpa using hw
    · simp only [if_true]
      exact mul_nonneg hw (by norm_num)
  have hb := scale_step_bounds c (widthLimit (isHeadingRole role) wBox) fontSize hc hl
  have hadj : adjustForWidth (fun s => c * s) role wBox fontSize =
      (if c * fontSize > widthLimit (isHeadingRole role) wBox
        then (⌊(fontSize : ℚ) * ((widthLimit (isHeadingRole role) wBox) /
          (c * fontSize))⌋).toNat else fontSize) := rfl
  refine ⟨?_, ?_, ?_, ?_⟩
  · rw [hadj]
    exact hb.1
  · intro hflag
    have h2 := hb.2.1
    rw [← hadj] at h2
    rwa [hflag, widthLimit, if_neg Bool.false_ne_true] at h2
  · intro hflag
    have h2 := hb.2.1
    rw [← hadj] at h2
    rwa [hflag, widthLimit, if_pos rfl] at h2
  · intro hle
    rw [hadj]
    exact hb.2.2 hle

/-- Witness for C6: width factor 2, target width 10, body role, font size
20 — measured width 40 overflows, the size drops to 5 and the new width
2 × 5 = 10 sits exactly at the target. -/
theorem c6_witness :
    adjustForWidth (fun s => 2 * s) "body" 10 20 ≤ 20 ∧
    (isHeadingRole "body" = false →
      2 * ((adjustForWidth (fun s => 2 * s) "body" 10 20 : Nat) : ℚ) ≤ 10) ∧
    (isHeadingRole "body" = true →
      2 * ((adjustForWidth (fun s => 2 * s) "body" 10 20 : Nat) : ℚ) ≤ 10 * (11 / 10)) ∧
    ((2 : ℚ) * ((20 : Nat) : ℚ) ≤ widthLimit (isHeadingRole "body") 10 →
      adjustForWidth (fun s => 2 * s) "body" 10 20 = 20) :=
  c6_width_clamp 2 10 "body" 20 (by with_unfolding_all decide)
    (by with_unfolding_all decide)

/-- The running-minimum loop of the closest-weight fallback, fully
characterised: starting from a recorded candidate, it returns either that
candidate unchanged (when no listed weight strictly improves on it) or the
FIRST listed weight attaining the final minimal distance — every element
listed before the winner is strictly farther, every element after it no
closer (the loop updates only on `diff < best_diff`, so the earliest of
equally-close weights wins). -/
theorem closestWeight_first_min (req : Nat) :
    ∀ (l : List Nat) (bw bd : Nat), bd = weightDist bw req →
      ∃ rw2 rd2, closestWeight req l (some (bw, bd)) = some (rw2, rd2) ∧
        rd2 = weightDist rw2 req ∧
        ((rw2 = bw ∧ rd2 = bd ∧ ∀ v ∈ l, bd ≤ weightDist v req) ∨
          (∃ l1 l2, l = l1 ++ rw2 :: l2 ∧ rd2 < bd ∧
            (∀ v ∈ l1, rd2 < weightDist v req) ∧
            (∀ v ∈ l2, rd2 ≤ weightDist v req))) := by
  intro l
  induction l with
  | nil =>
    intro bw bd hbd
    exact ⟨bw, bd, rfl, hbd, Or.inl ⟨rfl, rfl, by simp⟩⟩
  | cons w rest ih =>
    intro bw bd hbd
    rw [closestWeight]
    by_cases hd : weightDist w req < bd
    · rw [if_pos hd]
      obtain ⟨rw2, rd2, heq, hrd, hcase⟩ := ih w (weightDist w req) rfl
      refine ⟨rw2, rd2, heq, hrd, Or.inr ?_⟩
      rcases hcase with ⟨hbw, hr, hall⟩ | ⟨l1, l2, hsplit, hlt, hl1, hl2⟩
      · subst hbw
        refine ⟨[], rest, rfl, by omega, by simp, ?_⟩
        intro v hv
        have := hall v hv
        omega
      · refine ⟨w :: l1, l2, by rw [hsplit, List.cons_append], by omega, ?_, hl2⟩
        intro v hv
        rcases List.mem_cons.mp hv with rfl | hv2
        · exact hlt
        · exact hl1 v hv2
    · rw [if_neg hd]
      push_neg at hd
      obtain ⟨rw2, rd2, heq, hrd, hcase⟩ := ih bw bd hbd
      refine ⟨rw2, rd2, heq, hrd, ?_⟩
      rcases hcase with ⟨hbw, hr, hall⟩ | ⟨l1, l2, hsplit, hlt, hl1, hl2⟩
      · refine Or.inl ⟨hbw, hr, ?_⟩
        intro v hv
        rcases List.mem_cons.mp hv with rfl | hv2
        · exact hd
        · exact hall v hv2
      · refine Or.inr ⟨w :: l1, l2, by rw [hsplit, List.cons_append], hlt, ?_, hl2⟩
        intro v hv
        rcases List.mem_cons.mp hv with rfl | hv2
        · omega
        · exact hl1 v hv2

/-- Claim C8 counterexample: requested weight 900 with only 700 in the
catalog — the distance is 200, which exceeds ±100, yet the resolver uses
700 instead of proceeding down the fallback chain. -/
theorem c8_counterexample :
    resolveWeight [700] 900 = some 700 ∧ weightDist 700 900 = 200 ∧
      ¬ (weightDist 700 900 ≤ 100) := by
  refine ⟨?_, by decide, by decide⟩
  decide

/-- Claim C8 (amended): when the exact requested weight is absent from the
family's files, the resolver (1) returns, whenever it returns a weight,
the earliest-listed available weight of minimal absolute distance, within
`MAX_WEIGHT_DIFF = 200` (every earlier-listed weight is strictly farther);
(2) does return a weight whenever some available weight is within 200; and
(3) falls through to the Roboto fallback exactly when every available
weight is farther than 200. -/
theorem c8_closest_weight_rule (avail : List Nat) (requested : Nat)
    (hne : requested ∉ avail) :
    (∀ bw, resolveWeight avail requested = some bw →
      ∃ l1 l2, avail = l1 ++ bw :: l2 ∧
        weightDist bw requested ≤ maxWeightDiff ∧
        (∀ v ∈ avail, weightDist bw requested ≤ weightDist v requested) ∧
        (∀ v ∈ l1, weightDist bw requested < weightDist v requested)) ∧
    ((∃ v ∈ avail, weightDist v requested ≤ maxWeightDiff) →
      ∃ bw, resolveWeight avail requested = some bw) ∧
    ((∀ v ∈ avail, maxWeightDiff < weightDist v requested) →
      resolveWeight avail requested = none) := by
  unfold resolveWeight
  rw [if_neg hne]
  cases avail with
  | nil =>
    refine ⟨?_, ?_, fun _ => rfl⟩
    · intro bw h
      rw [closestWeight] at h
      exact absurd h (by simp)
    · rintro ⟨v, hv, _⟩
      exact absurd hv (List.not_mem_nil v)
  | cons a rest =>
    obtain ⟨rw2, rd2, heq, hrd, hcase⟩ :=
      closestWeight_first_min requested rest a (weightDist a requested) rfl
    have hstep : closestWeight requested (a :: rest) none =
        closestWeight requested rest (some (a, weightDist a requested)) := rfl
    rw [hstep, heq]
    have hmem2 : rw2 ∈ a :: rest := by
      rcases hcase with ⟨hbw, _, _⟩ | ⟨l1, l2, hsplit, _, _, _⟩
      · rw [hbw]
        exact List.mem_cons_self _ _
      · rw [hsplit]
        exact List.mem_cons_of_mem a (by simp)
    have hmin : ∀ v ∈ a :: rest, rd2 ≤ weightDist v requested := by
      rcases hcase with ⟨hbw, hr, hall⟩ | ⟨l1, l2, hsplit, hlt, hl1, hl2⟩
      · intro v hv
        rcases List.mem_cons.mp hv with rfl | hv2
        · omega
        · have := hall v hv2
          omega
      · intro v hv
        rcases List.mem_cons.mp hv with rfl | hv2
        · omega
        · rw [hsplit] at hv2
          rcases List.mem_append.mp hv2 with hv3 | hv3
          · have := hl1 v hv3
            omega
          · rcases List.mem_cons.mp hv3 with rfl | hv4
            · omega
            · exact hl2 v hv4
    have hsplitall : ∃ l1 l2, a :: rest = l1 ++ rw2 :: l2 ∧
        ∀ v ∈ l1, rd2 < weightDist v requested := by
      rcases hcase with ⟨hbw, _, _⟩ | ⟨l1, l2, hsplit, hlt, hl1, _⟩
      · subst hbw
        exact ⟨[], rest, rfl, by simp⟩
      · refine ⟨a :: l1, l2, by rw [hsplit, List.cons_append], ?_⟩
        intro v hv
        rcases List.mem_cons.mp hv with rfl | hv2
        · omega
        · exact hl1 v hv2
    refine ⟨?_, ?_, ?_⟩
    · intro bw h
      have h2 : (if rd2 ≤ maxWeightDiff then some rw2 else none) = some bw := h
      by_cases hthr : rd2 ≤ maxWeightDiff
      · rw [if_pos hthr] at h2
        have hbw : rw2 = bw := by
          injection h2
        subst hbw
        obtain ⟨l1, l2, hsp, hl1⟩ := hsplitall
        exact ⟨l1, l2, hsp, hrd ▸ hthr, fun v hv => hrd ▸ hmin v hv,
          fun v hv => hrd ▸ hl1 v hv⟩
      · rw [if_neg hthr] at h2
        exact absurd h2 (by simp)
    · rintro ⟨v, hv, hvle⟩
      have hthr : rd2 ≤ maxWeightDiff := le_trans (hmin v hv) hvle
      show ∃ bw, (if rd2 ≤ maxWeightDiff then some rw2 else none) = some bw
      rw [if_pos hthr]
      exact ⟨rw2, rfl⟩
    · intro hfar
      have hgt : maxWeightDiff < rd2 := hrd ▸ hfar rw2 hmem2
      show (if rd2 ≤ maxWeightDiff then some rw2 else none) = none
      rw [if_neg (not_le.mpr hgt)]

/-- Witness for C8 (amended): requested 400 with available weights 300 and
500, both at distance 100: the resolver returns 300, and the returned
decomposition places it with no strictly-closer or earlier-listed
competitor — the earliest of the tied weights wins. -/
theorem c8_witness :
    ∃ l1 l2, ([300, 500] : List Nat) = l1 ++ 300 :: l2 ∧
      weightDist 300 400 ≤ maxWeightDiff ∧
      (∀ v ∈ [300, 500], weightDist 300 400 ≤ weightDist v 400) ∧
      (∀ v ∈ l1, weightDist 300 400 < weightDist v 400) :=
  (c8_closest_weight_rule [300, 500] 400 (by decide)).1 300 (by decide)

end Pipeline
